import Mathlib

/-!
Shallow embedding of the concurrent ordered set and map of this repository
(src/concurrent/set.rs and src/concurrent/map.rs), specialised to the
single-threaded executions that the functional claims range over: every lock
acquisition succeeds at once, so the optimistic retry loops of put_cdc and
remove_cdc run a single iteration and every commit validation passes.  The
lock-free index (a skip map from max element to leaf handle) is embedded as
an association list sorted by key, and a leaf node as a plain list.  Elements
are compared through an explicit key projection, so that the map layer (pairs
ordered by key only) instantiates the very same definitions as the set layer.
Leaf primitives, the CDC event type, the pair type and the default node size
live outside src/ and are modelled from the specification where noted.
-/

namespace EightySix

/-- Range bounds, mirroring std::ops::Bound as used by the source. -/
inductive RBound (κ : Type) where
  | included : κ → RBound κ
  | excluded : κ → RBound κ
  | unbounded : RBound κ
deriving DecidableEq

/-- Modelled from the spec (section 4.6): the five CDC event shapes.  The
InsertNode payload is the snapshot of the leaf contents at emission time,
standing in for the shared leaf handle. -/
inductive ChangeEvent (α : Type) where
  | insertNode : α → List α → ChangeEvent α
  | removeNode : α → ChangeEvent α
  | insertAt : α → α → ChangeEvent α
  | removeAt : α → α → ChangeEvent α
deriving DecidableEq

/-- Modelled from the spec (section 4.8): the map is the set of pairs whose
ordering, and hence equality as seen by the container, compares keys only. -/
structure Pair (κ ν : Type) where
  key : κ
  value : ν
deriving DecidableEq

/-- Modelled from the spec (section 6): the default node capacity. -/
def DEFAULT_INNER_SIZE : Nat := 1024

/-- Word size of usize; the range machinery of the source performs wrapping
subtraction on usize, which the embedding reproduces explicitly. -/
def USIZE_MOD : Nat := 2 ^ 64

/-- Wrapping usize subtraction (release-mode semantics of a - b). -/
def usub (a b : Nat) : Nat :=
  if b ≤ a then a - b else USIZE_MOD - (b - a)

variable {α κ ν : Type} (key : α → κ) [LinearOrder κ]

/-- Modelled from the spec (section 4.1): leaf insert.  Finds the lower bound
position idx; if the element there is equal (by key) the leaf is unchanged and
the result is (false, idx), otherwise the value is inserted at idx and the
result is (true, idx).  Returns the new contents as the third component. -/
def nodeInsert (v : α) : List α → Bool × Nat × List α
  | [] => (true, 0, [v])
  | x :: xs =>
    if key x < key v then
      let r := nodeInsert v xs
      (r.1, r.2.1 + 1, x :: r.2.2)
    else if key v < key x then
      (true, 0, v :: x :: xs)
    else
      (false, 0, x :: xs)

/-- Modelled from the spec (section 4.1): swap the element at idx with v,
returning the displaced value. -/
def nodeReplace (idx : Nat) (v : α) (xs : List α) : Option α × List α :=
  (xs.get? idx, xs.set idx v)

/-- Modelled from the spec (section 4.1): binary search for q by key; if
found, remove and return it. -/
def nodeDelete (q : κ) : List α → Option α × List α
  | [] => (none, [])
  | x :: xs =>
    if key x < q then
      let r := nodeDelete q xs
      (r.1, x :: r.2)
    else if q < key x then
      (none, x :: xs)
    else
      (some x, xs)

/-- Modelled from the spec (section 4.1): leftmost position consistent with a
range bound.  Included k gives the first index with key at least k, Excluded k
the first index with key above k, symmetric for the end side; an unbounded
start is position 0 and an unbounded end the length. -/
def nodeRank (b : RBound κ) (isStart : Bool) (xs : List α) : Nat :=
  match b with
  | .included k => xs.findIdx (fun x => decide (k ≤ key x))
  | .excluded k => xs.findIdx (fun x => decide (k < key x))
  | .unbounded => if isStart then 0 else xs.length

/-- Modelled from the spec (section 4.1): position of the element equal (by
key) to q, if present. -/
def trySelect (q : κ) : List α → Option Nat
  | [] => none
  | x :: xs => if key x = q then some 0 else (trySelect q xs).map (· + 1)

/-- Modelled from the spec (section 4.1): membership by key equality. -/
def nodeContains (q : κ) (xs : List α) : Bool :=
  xs.any (fun x => decide (key x = q))

/-- An index entry: the max element of a leaf, paired with the leaf contents.
Embeds the skip map from T to the shared leaf node. -/
abbrev Index (α : Type) := List (α × List α)

/-- Skip map lower_bound: first entry whose key satisfies the bound. -/
def idxLowerBound (b : RBound κ) : Index α → Option (α × List α)
  | [] => none
  | e :: es =>
    match b with
    | .included k => if k ≤ key e.1 then some e else idxLowerBound (.included k) es
    | .excluded k => if k < key e.1 then some e else idxLowerBound (.excluded k) es
    | .unbounded => some e

/-- Skip map insert: replaces the entry with an equal key, if any. -/
def idxInsert (e : α) (l : List α) : Index α → Index α
  | [] => [(e, l)]
  | p :: ps =>
    if key p.1 < key e then p :: idxInsert e l ps
    else if key e < key p.1 then (e, l) :: p :: ps
    else (e, l) :: ps

/-- Skip map remove by key. -/
def idxRemove (k : κ) : Index α → Index α
  | [] => []
  | p :: ps => if key p.1 = k then ps else p :: idxRemove k ps

/-- In-place mutation of a leaf through its shared handle: the entry key is
untouched, only the contents stored under it change. -/
def idxSetLeaf (k : κ) (l : List α) : Index α → Index α
  | [] => []
  | p :: ps => if key p.1 = k then (p.1, l) :: ps else p :: idxSetLeaf k l ps

/-- Skip map entry navigation: the entry following the one keyed k. -/
def entryAfter (k : κ) : Index α → Option (α × List α)
  | [] => none
  | p :: ps => if key p.1 ≤ k then entryAfter k ps else some p

/-- The concurrent set: the index plus the configured node capacity
(src/concurrent/set.rs, struct BTreeSet). -/
structure CSet (α : Type) where
  index : Index α
  nodeCapacity : Nat
deriving DecidableEq

/-- with_maximum_node_size: stores the capacity, with no validation
(src/concurrent/set.rs lines 247 to 253). -/
def withMaximumNodeSize (c : Nat) : CSet α :=
  ⟨[], c⟩

/-- BTreeSet::new, via Default: empty index, default capacity. -/
def newSet : CSet α :=
  withMaximumNodeSize DEFAULT_INNER_SIZE

/-- The three escalation operations planned under the leaf lock and committed
under the index writer (src/concurrent/set.rs, enum Operation).  The leaf
handle is embedded as the leaf contents at commit time. -/
inductive Operation (α : Type) where
  | split : List α → α → α → Operation α
  | updateMax : List α → α → Operation α
  | makeUnreachable : List α → α → Operation α

/-- Operation::commit (src/concurrent/set.rs lines 102 to 220), single
threaded: the pointer-identity validation against the index always passes, so
the Err retry branches are unreachable and are embedded as no-ops. -/
def commitOp (op : Operation α) (ix : Index α) :
    Option α × List (ChangeEvent α) × Index α :=
  match op with
  | .split node oldMax value =>
    let ix1 := idxRemove key (key oldMax) ix
    let lower := node.take (node.length / 2)
    let upper := node.drop (node.length / 2)
    match lower.getLast? with
    | some lmax =>
      if key value < key lmax then
        let r := nodeInsert key value lower
        let lower1 :=
          if r.1 then (none, r.2.2) else
            ((nodeReplace r.2.1 value r.2.2).1, (nodeReplace r.2.1 value r.2.2).2)
        let ev1 := [ChangeEvent.removeNode oldMax, ChangeEvent.insertNode lmax lower1.2]
        let ix2 := idxInsert key lmax lower1.2 ix1
        match upper.getLast? with
        | some umax =>
          (lower1.1, ev1 ++ [ChangeEvent.insertNode umax upper], idxInsert key umax upper ix2)
        | none => (lower1.1, ev1, ix2)
      else
        let ev1 := [ChangeEvent.removeNode oldMax, ChangeEvent.insertNode lmax lower]
        let ix2 := idxInsert key lmax lower ix1
        match upper.getLast? with
        | some umax0 =>
          let r := nodeInsert key value upper
          let upper1 :=
            if r.1 then (none, r.2.2) else
              ((nodeReplace r.2.1 value r.2.2).1, (nodeReplace r.2.1 value r.2.2).2)
          let umax := if r.1 ∧ key umax0 < key value then value else umax0
          (upper1.1, ev1 ++ [ChangeEvent.insertNode umax upper1.2],
            idxInsert key umax upper1.2 ix2)
        | none => (none, ev1, ix2)
    | none =>
      match upper.getLast? with
      | some umax0 =>
        let r := nodeInsert key value upper
        let upper1 :=
          if r.1 then (none, r.2.2) else
            ((nodeReplace r.2.1 value r.2.2).1, (nodeReplace r.2.1 value r.2.2).2)
        let umax := if r.1 ∧ key umax0 < key value then value else umax0
        (upper1.1, [ChangeEvent.insertNode umax upper1.2], idxInsert key umax upper1.2 ix1)
      | none => (none, [], ix1)
  | .updateMax node oldMax =>
    match node.getLast? with
    | none => (none, [], ix)
    | some newMax =>
      if key newMax = key oldMax then (none, [], ix)
      else
        (none, [ChangeEvent.removeNode oldMax, ChangeEvent.insertNode newMax node],
          idxInsert key newMax node (idxRemove key (key oldMax) ix))
  | .makeUnreachable node oldMax =>
    match node.getLast? with
    | some _ => (none, [], ix)
    | none =>
      (none, [ChangeEvent.removeNode oldMax], idxRemove key (key oldMax) ix)

/-- The target entry of a put: lower_bound(Included value), else the back
entry (src/concurrent/set.rs lines 258 to 288). -/
def putTarget (s : CSet α) (v : α) : Option (α × List α) :=
  match idxLowerBound key (.included (key v)) s.index with
  | some e => some e
  | none => s.index.getLast?

/-- BTreeSet::put_cdc (src/concurrent/set.rs lines 254 to 347), single
threaded.  Branches reachable only through an indexed empty leaf, where the
source would panic on Option unwrap, return (none, [], s) unchanged; an
indexed leaf is never empty. -/
def putCdc (s : CSet α) (v : α) : Option α × List (ChangeEvent α) × CSet α :=
  match putTarget key s v with
  | none =>
    (none, [ChangeEvent.insertNode v [v]], ⟨[(v, [v])], s.nodeCapacity⟩)
  | some (em, leaf) =>
    if leaf.length < s.nodeCapacity then
      let oldMax? := leaf.getLast?
      let r := nodeInsert key v leaf
      if r.1 then
        if r.2.2.getLast?.map key = oldMax?.map key then
          match oldMax? with
          | some oldMax =>
            (some v, [ChangeEvent.insertAt oldMax v],
              ⟨idxSetLeaf key (key em) r.2.2 s.index, s.nodeCapacity⟩)
          | none => (none, [], s)
        else
          match oldMax? with
          | some oldMax =>
            let ix0 := idxSetLeaf key (key em) r.2.2 s.index
            let c := commitOp key (.updateMax r.2.2 oldMax) ix0
            (c.1, c.2.1, ⟨c.2.2, s.nodeCapacity⟩)
          | none => (none, [], s)
      else
        match oldMax? with
        | some oldMax =>
          let rp := nodeReplace r.2.1 v r.2.2
          (rp.1, [ChangeEvent.removeAt oldMax v, ChangeEvent.insertAt oldMax v],
            ⟨idxSetLeaf key (key em) rp.2 s.index, s.nodeCapacity⟩)
        | none => (none, [], s)
    else
      let c := commitOp key (.split leaf em v) s.index
      (c.1, c.2.1, ⟨c.2.2, s.nodeCapacity⟩)

/-- BTreeSet::insert (src/concurrent/set.rs lines 368 to 374): true exactly
when put_cdc returned the None sentinel. -/
def insertSet (s : CSet α) (v : α) : Bool × CSet α :=
  let r := putCdc key s v
  (r.1.isNone, r.2.2)

/-- BTreeSet::remove_cdc (src/concurrent/set.rs lines 375 to 433), single
threaded.  On escalation the events computed by Operation::commit are
discarded, exactly as in the source, where the commit result is matched with
Ok(_) and the empty local buffer is returned instead. -/
def removeCdc (s : CSet α) (q : κ) : Option α × List (ChangeEvent α) × CSet α :=
  match idxLowerBound key (.included q) s.index with
  | none => (none, [], s)
  | some (em, leaf) =>
    let oldMax? := leaf.getLast?
    let r := nodeDelete key q leaf
    match r.1 with
    | none => (none, [], s)
    | some d =>
      if r.2.length > 0 then
        if oldMax?.map key = r.2.getLast?.map key then
          match oldMax? with
          | some oldMax =>
            (some d, [ChangeEvent.removeAt oldMax d],
              ⟨idxSetLeaf key (key em) r.2 s.index, s.nodeCapacity⟩)
          | none => (none, [], s)
        else
          match oldMax? with
          | some oldMax =>
            let ix0 := idxSetLeaf key (key em) r.2 s.index
            let c := commitOp key (.updateMax r.2 oldMax) ix0
            (some d, [], ⟨c.2.2, s.nodeCapacity⟩)
          | none => (none, [], s)
      else
        match oldMax? with
        | some oldMax =>
          let ix0 := idxSetLeaf key (key em) r.2 s.index
          let c := commitOp key (.makeUnreachable r.2 oldMax) ix0
          (some d, [], ⟨c.2.2, s.nodeCapacity⟩)
        | none => (none, [], s)

/-- BTreeSet::locate_node (src/concurrent/set.rs lines 455 to 468):
lower_bound(Included q), else back, else front. -/
def locateNode (s : CSet α) (q : κ) : Option (List α) :=
  match idxLowerBound key (.included q) s.index with
  | some e => some e.2
  | none =>
    match s.index.getLast? with
    | some e => some e.2
    | none => s.index.head?.map (·.2)

/-- BTreeSet::get (src/concurrent/set.rs lines 495 to 513): locate the node,
then try_select; the Ref is embedded as the locked leaf contents and the
stored position. -/
def csGet (s : CSet α) (q : κ) : Option (List α × Nat) :=
  match locateNode key s q with
  | none => none
  | some leaf =>
    match trySelect key q leaf with
    | some pos => some (leaf, pos)
    | none => none

/-- Ref::get (src/concurrent/set.rs lines 228 to 232): the unwrap is embedded
as the Option it unwraps. -/
def refGet (r : List α × Nat) : Option α :=
  r.1.get? r.2

/-- BTreeSet::contains (src/concurrent/set.rs lines 484 to 494). -/
def csContains (s : CSet α) (q : κ) : Bool :=
  match locateNode key s q with
  | some leaf => nodeContains key q leaf
  | none => false

/-- BTreeSet::len: sum of leaf lengths. -/
def csLen (s : CSet α) : Nat :=
  (s.index.map (fun p => p.2.length)).sum

/-- The multiset of stored elements in index order: concatenation of the leaf
contents, leaf by leaf. -/
def toListSet (s : CSet α) : List α :=
  (s.index.map Prod.snd).flatten

/-- The map layer (src/concurrent/map.rs): the set instantiated at pairs
with the key projection as the comparison key. -/
abbrev CMap (κ ν : Type) := CSet (Pair κ ν)

/-- BTreeMap::new. -/
def newMap : CMap κ ν :=
  newSet

/-- BTreeMap::insert (src/concurrent/map.rs lines 205 to 212): put of the
pair, returning the value component of what put_cdc returned. -/
def mapInsert (m : CMap κ ν) (k : κ) (v : ν) : Option ν × CMap κ ν :=
  let r := putCdc Pair.key m ⟨k, v⟩
  (r.1.map Pair.value, r.2.2)

/-- BTreeMap::insert_cdc (src/concurrent/map.rs lines 213 to 219). -/
def mapInsertCdc (m : CMap κ ν) (k : κ) (v : ν) :
    Option ν × List (ChangeEvent (Pair κ ν)) × CMap κ ν :=
  let r := putCdc Pair.key m ⟨k, v⟩
  (r.1.map Pair.value, r.2.1, r.2.2)

/-- BTreeMap::remove_cdc (src/concurrent/map.rs lines 248 to 256). -/
def mapRemoveCdc (m : CMap κ ν) (k : κ) :
    Option (κ × ν) × List (ChangeEvent (Pair κ ν)) × CMap κ ν :=
  let r := removeCdc Pair.key m k
  (r.1.map (fun p => (p.key, p.value)), r.2.1, r.2.2)

/-- BTreeMap::contains_key. -/
def mapContainsKey (m : CMap κ ν) (k : κ) : Bool :=
  csContains Pair.key m k

/-- Remove the half-open slice of positions a to b from a leaf, as
Vec::drain(a..b). -/
def listDrain (a b : Nat) (l : List α) : List α :=
  l.take a ++ l.drop b

/-- The intermediate-node removal loop of remove_range: repeatedly remove the
entry following the front key until it is the back key or entries run out. -/
def removeBetween (fk bk : κ) : Nat → Index α → Index α
  | 0, ix => ix
  | fuel + 1, ix =>
    match entryAfter key fk ix with
    | none => ix
    | some ne =>
      if key ne.1 = bk then ix
      else removeBetween fk bk fuel (idxRemove key (key ne.1) ix)

/-- BTreeSet::remove_range (src/concurrent/set.rs lines 942 to 1073), run
under the index writer. -/
def removeRange (s : CSet α) (sb eb : RBound κ) : CSet α :=
  match idxLowerBound key sb s.index with
  | none => s
  | some fe =>
    let fleaf := fe.2
    let fpos0 := nodeRank key sb true fleaf
    let fpos := if fpos0 < fleaf.length then fpos0 else 0
    match idxLowerBound key eb s.index with
    | none =>
      let adjusted := if fpos > 0 then fleaf.length else 0
      let fleaf1 := listDrain fpos adjusted fleaf
      let ix1 := idxRemove key (key fe.1) s.index
      match fleaf1.getLast? with
      | none => ⟨ix1, s.nodeCapacity⟩
      | some m => ⟨idxInsert key m fleaf1 ix1, s.nodeCapacity⟩
    | some be =>
      if key be.1 = key fe.1 then
        let p := nodeRank key eb true fleaf
        let bpos := if p > 0 then p - 1 else fleaf.length
        let adjusted := if fpos > bpos then fleaf.length else bpos
        let fleaf1 := listDrain fpos adjusted fleaf
        let ix1 := idxRemove key (key fe.1) s.index
        match fleaf1.getLast? with
        | none => ⟨ix1, s.nodeCapacity⟩
        | some m => ⟨idxInsert key m fleaf1 ix1, s.nodeCapacity⟩
      else
        let bleaf := be.2
        let p := nodeRank key eb true bleaf
        let bpos := if p > 0 then p - 1 else bleaf.length
        let ix1 := removeBetween key (key fe.1) (key be.1) s.index.length s.index
        let ix2 := idxRemove key (key fe.1) ix1
        let fleaf1 := fleaf.take fpos
        let ix3 :=
          match fleaf1.getLast? with
          | none => ix2
          | some m => idxInsert key m fleaf1 ix2
        let ix4 := idxRemove key (key be.1) ix3
        let bleaf1 := bleaf.drop bpos
        let ix5 :=
          match bleaf1.getLast? with
          | none => ix4
          | some m => idxInsert key m bleaf1 ix4
        ⟨ix5, s.nodeCapacity⟩

/-- Iterator state (src/concurrent/set.rs, struct Iter): current front and
back index entries (by key), the element cursors over the locked leaves, and
the high-water marks. -/
structure IterSt (α : Type) where
  ix : Index α
  frontKey : Option α
  frontIter : Option (List α)
  backKey : Option α
  backIter : Option (List α)
  lastFront : Option α
  lastBack : Option α
deriving DecidableEq

/-- Iter::new (src/concurrent/set.rs lines 570 to 612): front cursor over
the first leaf, back cursor over the last leaf only when it is a distinct
leaf. -/
def iterInit (s : CSet α) : IterSt α :=
  let fe := s.index.head?
  let be := s.index.getLast?
  { ix := s.index
    frontKey := fe.map Prod.fst
    frontIter := fe.map Prod.snd
    backKey := be.map Prod.fst
    backIter :=
      match be, fe with
      | some b, some f => if key b.1 = key f.1 then none else some b.2
      | _, _ => none
    lastFront := none
    lastBack := none }

/-- The inner loop of Iter::next (src/concurrent/set.rs lines 621 to 674),
forward direction, with explicit fuel for the loop. -/
def iterNextLoop (st : IterSt α) : Nat → Option (α × IterSt α)
  | 0 => none
  | fuel + 1 =>
    match st.frontIter with
    | some (v :: rest) =>
      some (v, { st with frontIter := some rest, lastFront := some v })
    | some [] =>
      iterNextLoop { st with frontIter := none } fuel
    | none =>
      let stepped :=
        match st.frontKey with
        | none => none
        | some fk => entryAfter key (key fk) st.ix
      let st1 := { st with frontKey := none }
      match stepped with
      | some ne =>
        match st1.backKey with
        | some bk =>
          if key ne.1 = key bk then
            match st1.backIter with
            | some (v :: rest) =>
              some (v, { st1 with backIter := some rest, lastFront := some v })
            | _ => none
          else
            iterNextLoop { st1 with frontKey := some ne.1, frontIter := some ne.2 } fuel
        | none =>
          match st1.backIter with
          | some (v :: rest) =>
            some (v, { st1 with backIter := some rest, lastFront := some v })
          | _ => none
      | none =>
        match st1.backIter with
        | some (v :: rest) =>
          some (v, { st1 with backIter := some rest, lastFront := some v })
        | _ => none

/-- Iter::next, forward direction: the exhaustion check on the high-water
marks, then the loop. -/
def iterNextF (st : IterSt α) : Option (α × IterSt α) :=
  if (st.lastFront.isSome || st.lastBack.isSome) &&
      (st.lastFront.map key = st.lastBack.map key : Bool) then
    none
  else
    iterNextLoop key st (st.ix.length * 2 + 4)

/-- Collect the forward iteration. -/
def iterCollect (st : IterSt α) : Nat → List α
  | 0 => []
  | n + 1 =>
    match iterNextF key st with
    | some (v, st1) => v :: iterCollect st1 n
    | none => []

/-- The full forward iteration of BTreeSet::iter. -/
def iterListF (s : CSet α) : List α :=
  iterCollect key (iterInit key s) (csLen s + 1)

/-- The front-cursor positioning of Range::new (src/concurrent/set.rs lines
781 to 799): rank under the start bound, then Iterator::nth with the wrapping
usize subtraction the source performs. -/
def rangeTrimFront (sb : RBound κ) (leaf : List α) : List α :=
  let pos := nodeRank key sb true leaf
  if pos < leaf.length then
    match sb with
    | .included _ => if pos = 0 then leaf else leaf.drop (usub pos 1 + 1)
    | _ => leaf.drop (usub pos 1 + 1)
  else leaf

/-- Iterator::nth_back(n): drop the last n + 1 elements. -/
def nthBackList (l : List α) (n : Nat) : List α :=
  l.take (l.length - (n + 1))

/-- The back-cursor positioning of Range::new for a back leaf distinct from
the front leaf (src/concurrent/set.rs lines 813 to 834). -/
def rangeTrimBackDistinct (eb : RBound κ) (leaf : List α) : List α :=
  let pos := nodeRank key eb false leaf
  if pos < leaf.length then
    match eb with
    | .included _ =>
      if pos < leaf.length then nthBackList leaf (usub (usub leaf.length pos) 2)
      else leaf
    | _ => nthBackList leaf (usub leaf.length pos)
  else leaf

/-- Range::new (src/concurrent/set.rs lines 767 to 868).  When front and back
resolve to the same leaf the end trim is applied to the already trimmed front
cursor and no back cursor is taken. -/
def rangeInit (s : CSet α) (sb eb : RBound κ) : IterSt α :=
  let fe :=
    match idxLowerBound key sb s.index with
    | some e => some e
    | none => s.index.getLast?
  let be :=
    match idxLowerBound key eb s.index with
    | some e => some e
    | none => s.index.getLast?
  match fe with
  | none =>
    { ix := s.index, frontKey := none, frontIter := none,
      backKey := be.map Prod.fst, backIter := none,
      lastFront := none, lastBack := none }
  | some f =>
    let fIt0 := rangeTrimFront key sb f.2
    match be with
    | none =>
      { ix := s.index, frontKey := some f.1, frontIter := some fIt0,
        backKey := none, backIter := none, lastFront := none, lastBack := none }
    | some b =>
      if key b.1 = key f.1 then
        let pos := nodeRank key eb false f.2
        let fIt1 :=
          if pos < f.2.length then nthBackList fIt0 (usub (usub f.2.length pos) 1)
          else fIt0
        { ix := s.index, frontKey := some f.1, frontIter := some fIt1,
          backKey := some b.1, backIter := none, lastFront := none, lastBack := none }
      else
        { ix := s.index, frontKey := some f.1, frontIter := some fIt0,
          backKey := some b.1, backIter := some (rangeTrimBackDistinct key eb b.2),
          lastFront := none, lastBack := none }

/-- The forward iteration of BTreeSet::range. -/
def rangeList (s : CSet α) (sb eb : RBound κ) : List α :=
  iterCollect key (rangeInit key s sb eb) (csLen s + 1)

/-- Sorted insertion at the lower bound position, used by the replica. -/
def sortedIns (x : α) : List α → List α
  | [] => [x]
  | y :: ys => if key y < key x then y :: sortedIns x ys else x :: y :: ys

/-- Point update of the replica leaf stored under a key, if present. -/
def replicaModify (k : κ) (f : List α → List α) : Index α → Index α
  | [] => []
  | p :: ps => if key p.1 = k then (p.1, f p.2) :: ps else p :: replicaModify k f ps

/-- Modelled from the spec (sections 4.6 and 8, property 6): a replica is a
map from node-max-key to sorted vector; InsertNode stores the leaf snapshot,
RemoveNode drops the entry, InsertAt and RemoveAt edit the stored vector at
the position found by comparison, which for pairs compares keys only. -/
def applyEvent (r : Index α) : ChangeEvent α → Index α
  | .insertNode m c => idxInsert key m c r
  | .removeNode m => idxRemove key (key m) r
  | .insertAt m x => replicaModify key (key m) (sortedIns key x) r
  | .removeAt m x => replicaModify key (key m) (fun l => (nodeDelete key (key x) l).2) r

/-- Replay a CDC batch onto a replica. -/
def replicaApply (r : Index α) (es : List (ChangeEvent α)) : Index α :=
  es.foldl (applyEvent key) r

/-- The flattened replica content. -/
def replicaFlatten (r : Index α) : List α :=
  (r.map Prod.snd).flatten

/-- Structural invariant of a reachable index: every leaf is stored under its
last element, every leaf is sorted strictly by key, and every element of a
later leaf is at least the key of every earlier entry.  The third clause is
weak on purpose: the states produced by the split path of put still satisfy
it even where strict cross-leaf ascent fails. -/
def SetInv (s : CSet α) : Prop :=
  (∀ p ∈ s.index, p.2.getLast? = some p.1) ∧
  (∀ p ∈ s.index, List.Chain' (fun a b => key a < key b) p.2) ∧
  List.Pairwise (fun p1 p2 => ∀ x ∈ p2.2, key p1.1 ≤ key x) s.index

theorem nodeInsert_not_inserted {v : α} {l : List α}
    (h : (nodeInsert key v l).1 = false) : (nodeInsert key v l).2.2 = l := by
  induction l with
  | nil => simp [nodeInsert] at h
  | cons x xs ih =>
    by_cases h1 : key x < key v
    · simp only [nodeInsert, if_pos h1] at h ⊢
      rw [ih h]
    · by_cases h2 : key v < key x
      · simp [nodeInsert, h1, h2] at h
      · simp [nodeInsert, h1, h2]

theorem trySelect_isSome_iff {q : κ} {l : List α} :
    (trySelect key q l).isSome = true ↔ ∃ x ∈ l, key x = q := by
  induction l with
  | nil => simp [trySelect]
  | cons x xs ih =>
    by_cases h : key x = q
    · simp [trySelect, h]
    · simp [trySelect, h, ih]

theorem trySelect_eq_some {q : κ} {l : List α} {i : Nat}
    (h : trySelect key q l = some i) :
    ∃ hi : i < l.length, key (l.get ⟨i, hi⟩) = q := by
  induction l generalizing i with
  | nil => simp [trySelect] at h
  | cons x xs ih =>
    by_cases hx : key x = q
    · simp only [trySelect, if_pos hx] at h
      cases h
      exact ⟨by simp, hx⟩
    · simp only [trySelect, if_neg hx, Option.map_eq_some'] at h
      obtain ⟨j, hj, rfl⟩ := h
      obtain ⟨hlt, hk⟩ := ih hj
      exact ⟨by simpa using Nat.succ_lt_succ hlt, hk⟩

theorem idxLowerBound_included_eq_some {q : κ} {ix : Index α} {e : α × List α}
    (h : idxLowerBound key (.included q) ix = some e) :
    q ≤ key e.1 ∧ ∃ pre post, ix = pre ++ e :: post ∧ ∀ p ∈ pre, key p.1 < q := by
  induction ix with
  | nil => simp [idxLowerBound] at h
  | cons p ps ih =>
    by_cases hp : q ≤ key p.1
    · simp only [idxLowerBound, if_pos hp] at h
      cases h
      exact ⟨hp, [], ps, rfl, by simp⟩
    · simp only [idxLowerBound, if_neg hp] at h
      obtain ⟨hle, pre, post, heq, hpre⟩ := ih h
      refine ⟨hle, p :: pre, post, by rw [heq]; rfl, ?_⟩
      intro p1 hp1
      rcases List.mem_cons.mp hp1 with rfl | hp1
      · exact lt_of_not_le hp
      · exact hpre p1 hp1

theorem idxLowerBound_included_eq_none {q : κ} {ix : Index α}
    (h : idxLowerBound key (.included q) ix = none) :
    ∀ p ∈ ix, key p.1 < q := by
  induction ix with
  | nil => simp
  | cons p ps ih =>
    by_cases hp : q ≤ key p.1
    · simp [idxLowerBound, hp] at h
    · simp only [idxLowerBound, if_neg hp] at h
      intro p1 hp1
      rcases List.mem_cons.mp hp1 with rfl | hp1
      · exact lt_of_not_le hp
      · exact ih h p1 hp1

theorem mem_of_getLast?_eq {l : List α} {m : α} (h : l.getLast? = some m) :
    m ∈ l := by
  obtain ⟨hne, rfl⟩ := List.mem_getLast?_eq_getLast h
  exact List.getLast_mem hne

theorem key_le_getLast_of_chain {l : List α}
    (hc : List.Chain' (fun a b => key a < key b) l) {m : α}
    (hm : l.getLast? = some m) : ∀ x ∈ l, key x ≤ key m := by
  induction l with
  | nil => intro x hx; cases hx
  | cons a t ih =>
    intro x hx
    cases t with
    | nil =>
      rcases List.mem_singleton.mp hx with rfl
      simp only [List.getLast?_singleton, Option.some.injEq] at hm
      rw [hm]
    | cons b t1 =>
      rw [List.getLast?_cons_cons] at hm
      rw [List.chain'_cons] at hc
      rcases List.mem_cons.mp hx with rfl | hx1
      · exact le_trans (le_of_lt hc.1) (ih hc.2 hm b (List.mem_cons_self b t1))
      · exact ih hc.2 hm x hx1

theorem mem_toListSet {s : CSet α} {x : α} :
    x ∈ toListSet s ↔ ∃ p ∈ s.index, x ∈ p.2 := by
  simp only [toListSet, List.mem_flatten, List.mem_map]
  constructor
  · rintro ⟨l, ⟨p, hp, rfl⟩, hx⟩
    exact ⟨p, hp, hx⟩
  · rintro ⟨p, hp, hx⟩
    exact ⟨p.2, ⟨p, hp, rfl⟩, hx⟩

theorem locateNode_mem {s : CSet α} {q : κ} {leaf : List α}
    (h : locateNode key s q = some leaf) : ∃ p ∈ s.index, p.2 = leaf := by
  unfold locateNode at h
  cases hlb : idxLowerBound key (.included q) s.index with
  | some e =>
    rw [hlb] at h
    cases h
    obtain ⟨_, pre, post, heq, _⟩ := idxLowerBound_included_eq_some key hlb
    exact ⟨e, by rw [heq]; simp, rfl⟩
  | none =>
    rw [hlb] at h
    cases hback : s.index.getLast? with
    | some e =>
      rw [hback] at h
      cases h
      exact ⟨e, mem_of_getLast?_eq hback, rfl⟩
    | none =>
      rw [hback] at h
      cases hhead : s.index.head? with
      | some e =>
        rw [hhead] at h
        cases h
        exact ⟨e, List.mem_of_mem_head? hhead, rfl⟩
      | none => rw [hhead] at h; cases h

/-- C1: evaluation of the code at a failing input.  After inserting 2 into an
empty set, inserting the fresh element 1 (which does not become the leaf max)
returns false, although 1 was not present before: put_cdc returns the
Some(value) sentinel on an in-place insert with unchanged max, and insert
maps only None to true.  The first bootstrap insert does return true. -/
theorem insert_fresh_element_returns_false :
    (insertSet id (newSet : CSet Nat) 2).1 = true ∧
    csContains id ((insertSet id (newSet : CSet Nat) 2).2) 1 = false ∧
    (insertSet id ((insertSet id (newSet : CSet Nat) 2).2) 1).1 = false := by
  decide

/-- C2: evaluation of the code at a failing input.  After inserting the pair
(2, b) into an empty map, inserting (1, a) under the fresh key 1 returns
Some(a) -- the newly supplied value -- although no pair with key 1 existed,
because put_cdc hands back the Some(value) sentinel and BTreeMap::insert
merely projects the value component. -/
theorem map_insert_fresh_key_returns_some :
    mapContainsKey ((mapInsert (newMap : CMap Nat String) 2 "b").2) 1 = false ∧
    (mapInsert ((mapInsert (newMap : CMap Nat String) 2 "b").2) 1 "a").1 = some "a" := by
  decide

/-- C3: evaluation of the code at the failing input of scenario S4.  Insert 5
then remove_cdc(5): the element is returned and the set becomes empty, but
the returned CDC batch is empty rather than the RemoveNode(5) event, because
remove_cdc discards the event list computed by Operation::commit. -/
theorem remove_cdc_to_empty_drops_batch :
    (removeCdc id ((putCdc id (newSet : CSet Nat) 5).2.2) 5).1 = some 5 ∧
    (removeCdc id ((putCdc id (newSet : CSet Nat) 5).2.2) 5).2.1 = [] ∧
    csLen ((removeCdc id ((putCdc id (newSet : CSet Nat) 5).2.2) 5).2.2) = 0 ∧
    iterListF id ((removeCdc id ((putCdc id (newSet : CSet Nat) 5).2.2) 5).2.2) = [] ∧
    ([] : List (ChangeEvent Nat)) ≠ [ChangeEvent.removeNode 5] := by
  decide

/-- C4: evaluation of the code at a failing operation sequence.  For the
sequence insert_cdc(5) then remove_cdc(5), replaying the two CDC batches in
order onto a fresh replica leaves the node 5 with contents [5], while the
live set iterates to nothing, so the flattened replica does not equal the
live iteration. -/
theorem cdc_replay_diverges_after_remove :
    replicaFlatten (replicaApply id []
        ((putCdc id (newSet : CSet Nat) 5).2.1 ++
          (removeCdc id ((putCdc id (newSet : CSet Nat) 5).2.2) 5).2.1)) = [5] ∧
    iterListF id ((removeCdc id ((putCdc id (newSet : CSet Nat) 5).2.2) 5).2.2) = [] ∧
    ([5] : List Nat) ≠ [] := by
  decide

/-- C5 counterexample: after insert(1, a), insert(1, b) emits the batch whose
RemoveAt event carries the newly inserted pair (1, b), not the displaced pair
(1, a); the claim asserts the displaced pair, and the two pairs differ, so
the claimed batch is not the emitted one. -/
theorem overwrite_removeat_payload_is_new_value :
    (mapInsertCdc ((mapInsertCdc (newMap : CMap Nat String) 1 "a").2.2) 1 "b").2.1 =
      [ChangeEvent.removeAt (Pair.mk 1 "a") (Pair.mk 1 "b"),
        ChangeEvent.insertAt (Pair.mk 1 "a") (Pair.mk 1 "b")] ∧
    (mapInsertCdc ((mapInsertCdc (newMap : CMap Nat String) 1 "a").2.2) 1 "b").1 =
      some "a" ∧
    (mapInsertCdc ((mapInsertCdc (newMap : CMap Nat String) 1 "a").2.2) 1 "b").2.1 ≠
      [ChangeEvent.removeAt (Pair.mk 1 "a") (Pair.mk 1 "a"),
        ChangeEvent.insertAt (Pair.mk 1 "a") (Pair.mk 1 "b")] := by
  decide

/-- C5 amended: when put_cdc finds an equal element in a non-full target
leaf, it returns the displaced element and emits exactly the batch
RemoveAt(old_max, v) followed by InsertAt(old_max, v), both events carrying
the newly inserted value v; the displaced element appears only in the return
value. -/
theorem put_cdc_replace_batch {s : CSet α} {v em m : α} {leaf : List α}
    (h1 : putTarget key s v = some (em, leaf))
    (h2 : leaf.length < s.nodeCapacity)
    (h3 : (nodeInsert key v leaf).1 = false)
    (h4 : leaf.getLast? = some m) :
    (putCdc key s v).2.1 = [ChangeEvent.removeAt m v, ChangeEvent.insertAt m v] ∧
    (putCdc key s v).1 = leaf.get? (nodeInsert key v leaf).2.1 := by
  have hL := nodeInsert_not_inserted key h3
  unfold putCdc
  rw [h1]
  simp [h2, h3, h4, hL, nodeReplace]

/-- C5 witness: the amended statement instantiated at the overwrite scenario,
insert(1, a) then insert(1, b). -/
theorem put_cdc_replace_batch_witness :
    (putCdc Pair.key
        (CSet.mk [(Pair.mk 1 "a", [Pair.mk (1 : Nat) "a"])] 1024) (Pair.mk 1 "b")).2.1 =
      [ChangeEvent.removeAt (Pair.mk 1 "a") (Pair.mk 1 "b"),
        ChangeEvent.insertAt (Pair.mk 1 "a") (Pair.mk 1 "b")] ∧
    (putCdc Pair.key
        (CSet.mk [(Pair.mk 1 "a", [Pair.mk (1 : Nat) "a"])] 1024) (Pair.mk 1 "b")).1 =
      some (Pair.mk 1 "a") := by
  have h := @put_cdc_replace_batch (Pair Nat String) Nat Pair.key _
    (CSet.mk [(Pair.mk 1 "a", [Pair.mk (1 : Nat) "a"])] 1024)
    (Pair.mk 1 "b") (Pair.mk 1 "a") (Pair.mk 1 "a")
    [Pair.mk 1 "a"] (by decide) (by decide) (by decide) (by decide)
  exact ⟨h.1, h.2.trans (by decide)⟩

/-- C6: evaluation of the code at a failing input.  With node capacity 2 (a
legal capacity), insert 1, insert 2, then insert 1 again: the third insert
takes the split path, the value equal to the lower-half max is inserted into
the upper half, and the final iteration is [1, 1, 2] -- not strictly
ascending, with the duplicate stored across two leaves -- while the insert
reports a fresh insertion. -/
theorem split_insert_equal_duplicates_element :
    iterListF id ((putCdc id ((putCdc id ((putCdc id
        (withMaximumNodeSize 2 : CSet Nat) 1).2.2) 2).2.2) 1).2.2) = [1, 1, 2] ∧
    ¬ List.Chain' (· < ·) [1, 1, 2] ∧
    (putCdc id ((putCdc id ((putCdc id
        (withMaximumNodeSize 2 : CSet Nat) 1).2.2) 2).2.2) 1).1 = none := by
  refine ⟨by decide, ?_, by decide⟩
  simp [List.chain'_cons]

/-- C7: evaluation of the code at a failing input.  On the set containing 1,
the range with start bound Excluded(0) and unbounded end should yield [1];
the front cursor rank is 0 and the source computes position - 1 on usize,
which wraps (release) or panics (debug); with the wrapping semantics the
whole front leaf is skipped and the range yields nothing. -/
theorem range_excluded_start_at_position_zero_empty :
    rangeList id ((putCdc id (newSet : CSet Nat) 1).2.2)
      (RBound.excluded 0) RBound.unbounded = [] ∧
    toListSet ((putCdc id (newSet : CSet Nat) 1).2.2) = [1] ∧
    (0 : Nat) < 1 := by
  decide

/-- C8: evaluation of the code at a failing input.  On the set containing 1
and 2 in one leaf, remove_range over Included(1) to Excluded(2) should delete
exactly the element 1; the end bound lies beyond every index key, so the
lower bound for the back entry is empty, the back position defaults to 0, and
the drain removes nothing: the set is unchanged. -/
theorem remove_range_excluded_end_beyond_index_noop :
    toListSet (removeRange id ((putCdc id ((putCdc id
        (newSet : CSet Nat) 1).2.2) 2).2.2)
      (RBound.included 1) (RBound.excluded 2)) = [1, 2] ∧
    ([1, 2] : List Nat) ≠ [2] := by
  decide

/-- C9 counterexample: with_maximum_node_size(1) is not rejected; it returns
a set on which insert succeeds, the length is 1 and the element is
contained, so construction with capacity below 2 yields a usable set. -/
theorem with_maximum_node_size_one_usable :
    (insertSet id (withMaximumNodeSize 1 : CSet Nat) 5).1 = true ∧
    csLen (insertSet id (withMaximumNodeSize 1 : CSet Nat) 5).2 = 1 ∧
    csContains id (insertSet id (withMaximumNodeSize 1 : CSet Nat) 5).2 5 = true := by
  decide

/-- C9 amended: with_maximum_node_size performs no validation at all: for
every capacity, including 0 and 1, it returns the empty set carrying that
capacity, and the first insert succeeds on it. -/
theorem with_maximum_node_size_no_validation (c : Nat) :
    (withMaximumNodeSize c : CSet Nat).index = [] ∧
    (withMaximumNodeSize c : CSet Nat).nodeCapacity = c ∧
    toListSet ((putCdc id (withMaximumNodeSize c : CSet Nat) 5).2.2) = [5] :=
  ⟨rfl, rfl, rfl⟩

/-- C10: on any state satisfying the structural invariant, get(q) returns
Some exactly when the set contains an element whose key equals q, and
whenever it returns Some, the stored position is in bounds of the locked
leaf and Ref::get yields that element, so the unwrap inside it is
unreachable. -/
theorem get_some_iff_contains (s : CSet α) (q : κ) (hinv : SetInv key s) :
    ((csGet key s q).isSome = true ↔ ∃ x ∈ toListSet s, key x = q) ∧
    ∀ leaf i, csGet key s q = some (leaf, i) →
      i < leaf.length ∧ ∃ x, refGet (leaf, i) = some x ∧ key x = q := by
  obtain ⟨hLast, hChain, hPw⟩ := hinv
  constructor
  · constructor
    · intro hsome
      cases hloc : locateNode key s q with
      | none => simp [csGet, hloc] at hsome
      | some leaf =>
        cases hts : trySelect key q leaf with
        | none => simp [csGet, hloc, hts] at hsome
        | some i =>
          obtain ⟨hi, hk⟩ := trySelect_eq_some key hts
          obtain ⟨p, hp, hpl⟩ := locateNode_mem key hloc
          refine ⟨leaf.get ⟨i, hi⟩, mem_toListSet.mpr ⟨p, hp, ?_⟩, hk⟩
          rw [hpl]
          exact List.get_mem leaf i hi
    · rintro ⟨x, hx, hkx⟩
      obtain ⟨p, hp, hxp⟩ := mem_toListSet.mp hx
      have hq_le : q ≤ key p.1 := by
        have := key_le_getLast_of_chain key (hChain p hp) (hLast p hp) x hxp
        rw [hkx] at this
        exact this
      cases hlb : idxLowerBound key (.included q) s.index with
      | none =>
        exact absurd hq_le (not_le.mpr (idxLowerBound_included_eq_none key hlb p hp))
      | some e =>
        obtain ⟨hqe, pre, post, hsplit, hpre⟩ := idxLowerBound_included_eq_some key hlb
        have he_mem : e ∈ s.index := by rw [hsplit]; simp
        have hfound : ∃ y ∈ e.2, key y = q := by
          rw [hsplit] at hp
          rcases List.mem_append.mp hp with hp1 | hp2
          · exact absurd hq_le (not_le.mpr (hpre p hp1))
          · rcases List.mem_cons.mp hp2 with rfl | hp3
            · exact ⟨x, hxp, hkx⟩
            · have hpw1 := hPw
              rw [hsplit] at hpw1
              have hrel := ((List.pairwise_cons.mp
                (List.pairwise_append.mp hpw1).2.1).1) p hp3
              have h1 : key e.1 ≤ key x := hrel x hxp
              rw [hkx] at h1
              have h2 : key e.1 = q := le_antisymm h1 hqe
              exact ⟨e.1, mem_of_getLast?_eq (hLast e he_mem), h2⟩
        obtain ⟨i, hts⟩ := Option.isSome_iff_exists.mp
          ((trySelect_isSome_iff key).mpr hfound)
        simp [csGet, locateNode, hlb, hts]
  · intro leaf i hget
    cases hloc : locateNode key s q with
    | none => simp [csGet, hloc] at hget
    | some leaf1 =>
      cases hts : trySelect key q leaf1 with
      | none => simp [csGet, hloc, hts] at hget
      | some j =>
        simp only [csGet, hloc, hts, Option.some.injEq, Prod.mk.injEq] at hget
        obtain ⟨rfl, rfl⟩ := hget
        obtain ⟨hi, hk⟩ := trySelect_eq_some key hts
        refine ⟨hi, leaf1.get ⟨j, hi⟩, ?_, hk⟩
        simp [refGet, List.get?_eq_get hi]

/-- C10 witness: the statement instantiated at the two-element state with the
leaf [1, 2] stored under 2, queried at 1. -/
theorem get_some_iff_contains_witness :
    ((csGet id (CSet.mk [((2 : Nat), [1, 2])] 1024) 1).isSome = true ↔
      ∃ x ∈ toListSet (CSet.mk [((2 : Nat), [1, 2])] 1024), id x = 1) ∧
    ∀ leaf i, csGet id (CSet.mk [((2 : Nat), [1, 2])] 1024) 1 = some (leaf, i) →
      i < leaf.length ∧ ∃ x, refGet (leaf, i) = some x ∧ id x = 1 :=
  get_some_iff_contains id (CSet.mk [((2 : Nat), [1, 2])] 1024) 1
    (by refine ⟨by decide, ?_, by decide⟩
        intro p hp
        rcases List.mem_singleton.mp hp with rfl
        simp [List.chain'_cons])

end EightySix
